import Mathlib

/-!
Verification of the retrieval-and-scoring core of the `rag_stream` repository.

Strings are modelled as `List Char`; Python's `str.lower`, `str.strip`,
`str.split` and the substring test `in` are embedded below.  External
collaborators (the tiktoken tokenizer, the NLTK sentence tokenizer, the FAISS
index, SHA-256) are parameters of the embedded functions; every in-repository
computation is translated line by line from the Python source.
-/

namespace RagStream

/-- Strings as lists of characters. -/
abbrev Str := List Char

/-- The whitespace test used by Python's `str.split()` and `str.strip()`
(restricted to the ASCII whitespace characters that matter here; both the
code and the spec use the same notion). -/
def isWs (c : Char) : Bool :=
  c = ' ' || c = '\t' || c = '\n' || c = '\r'

/-- `s.lower()`. -/
def lowerS (s : Str) : Str := s.map Char.toLower

/-- `s.lstrip()`: drop leading whitespace. -/
def lstrip (s : Str) : Str := s.dropWhile (fun c => isWs c)

/-- `s.rstrip()`: drop trailing whitespace. -/
def rstrip (s : Str) : Str := ((s.reverse).dropWhile (fun c => isWs c)).reverse

/-- `s.strip()`. -/
def stripL (s : Str) : Str := rstrip (lstrip s)

/-- Auxiliary scanner for `s.split()`: accumulates the current word (reversed). -/
def wordsAux : Str → Str → List Str
  | [], acc => if acc = [] then [] else [acc.reverse]
  | c :: cs, acc =>
    if isWs c then
      (if acc = [] then [] else [acc.reverse]) ++ wordsAux cs []
    else
      wordsAux cs (c :: acc)

/-- `s.split()`: whitespace-delimited words, no empty words. -/
def wordsOf (s : Str) : List Str := wordsAux s []

/-- Does `hay` start with `needle`? -/
def startsWithL : Str → Str → Bool
  | [], _ => true
  | _ :: _, [] => false
  | a :: as, b :: bs => a = b && startsWithL as bs

/-- Python's substring test `needle in hay`. -/
def containsSub : Str → Str → Bool
  | [], needle => startsWithL needle []
  | c :: t, needle => startsWithL needle (c :: t) || containsSub t needle

/-- `calc_match` from `src/analysis/flow_comparison.py` (lines 351-364):

    if not master or master.lower() == "n/a": return "N/A", 0
    extracted_lower = extracted.lower().strip()
    master_lower = master.lower().strip()
    if extracted_lower == master_lower: return "exact", 100
    elif master_lower in extracted_lower or extracted_lower in master_lower:
        return "partial", 70
    elif any(word in extracted_lower for word in master_lower.split()):
        return "fuzzy", 40
    else: return "mismatch", 0
-/
def calc_match (extracted master : Str) : Str × Nat :=
  if master = [] ∨ lowerS master = "n/a".data then ("N/A".data, 0)
  else
    let extracted_lower := stripL (lowerS extracted)
    let master_lower := stripL (lowerS master)
    if extracted_lower = master_lower then ("exact".data, 100)
    else if containsSub extracted_lower master_lower
         || containsSub master_lower extracted_lower then ("partial".data, 70)
    else if (wordsOf master_lower).any (fun w => containsSub extracted_lower w) then
      ("fuzzy".data, 40)
    else ("mismatch".data, 0)

/-- `calculate_hallucination_score` from `src/analysis/hallucination.py`
(lines 7-50), with Python's float division modelled in `ℚ`. -/
def calculate_hallucination_score (extracted_value master_value context_text : Str) : Nat :=
  if extracted_value = "N/A".data ∨ extracted_value = "ERROR".data ∨ extracted_value = [] then 0
  else
    let extracted_lower := stripL (lowerS extracted_value)
    let master_lower := if master_value = [] then [] else stripL (lowerS master_value)
    if extracted_lower = master_lower then 0
    else if containsSub (lowerS context_text) extracted_lower then 10
    else
      let extracted_words := (wordsOf extracted_lower).dedup
      let context_words := wordsOf (lowerS context_text)
      let overlap : ℚ :=
        if extracted_words = [] then 0
        else ((extracted_words.filter (fun w => decide (w ∈ context_words))).length : ℚ)
             / (extracted_words.length : ℚ)
      if overlap > 8/10 then 20
      else if overlap > 5/10 then 40
      else if overlap > 2/10 then 60
      else 80

/-- The trimmed lowercased form of a string (`s.lower().strip()`), used to
state the Scorer claims. -/
def normLow (s : Str) : Str := stripL (lowerS s)

/-- The word-set overlap fraction `|words(e) ∩ words(c)| / |words(e)|` over
distinct words, in `ℚ` (0 when `e` has no words). -/
def overlapFrac (e c : Str) : ℚ :=
  (((wordsOf e).dedup.filter (fun w => decide (w ∈ wordsOf c))).length : ℚ)
    / (((wordsOf e).dedup.length : ℚ))

/-- Chunking mode, after the dispatch in `src/core/chunking.py`: the two
tested mode strings, and `token` for the fall-through branch. -/
inductive Mode
  | paragraph
  | sentence
  | token

/-- Chunking algorithm, after the dispatch in `chunk_text`: the tested
"Sliding Window" string, and `recursive` for the fall-through branch. -/
inductive Algorithm
  | slidingWindow
  | recursive

/-- Python `s.split(sep)` for a one-character separator `a`. -/
def split1 (a : Char) : Str → List Str
  | [] => [[]]
  | c :: rest =>
    if c = a then [] :: split1 a rest
    else
      match split1 a rest with
      | [] => [[c]]
      | p :: ps => (c :: p) :: ps

/-- Python `s.split(sep)` for a two-character separator `a ++ b`
(non-overlapping occurrences, scanned left to right). -/
def split2 (a b : Char) : Str → List Str
  | [] => [[]]
  | [c] => [[c]]
  | c :: d :: rest =>
    if c = a ∧ d = b then [] :: split2 a b rest
    else
      match split2 a b (d :: rest) with
      | [] => [[c]]
      | p :: ps => (c :: p) :: ps

/-- Python `" ".join(parts)`. -/
def joinSp : List Str → Str
  | [] => []
  | [x] => x
  | x :: y :: t => x ++ ' ' :: joinSp (y :: t)

/-- The sentence-mode accumulation loop of `chunk_text_sliding_window`
(`src/core/chunking.py` lines 38-50): state is (remaining sentences, buffer,
word count). -/
def sentLoop (size : Nat) : List Str → List Str → Nat → List Str
  | [], buf, _ => if buf = [] then [] else [joinSp buf]
  | s :: ss, buf, wc =>
    if size ≤ wc + (wordsOf s).length then
      joinSp (buf ++ [s]) :: sentLoop size ss [] 0
    else
      sentLoop size ss (buf ++ [s]) (wc + (wordsOf s).length)

/-- The token-mode window loop of `chunk_text_sliding_window`
(`src/core/chunking.py` lines 52-63): `for i in range(0, len(tokens), step)`
with `step = max(size - overlap, 1)`, emitting `tokens[i:i+size]` decoded when
non-empty. -/
def swGo (decode : List Nat → Str) (tokens : List Nat) (size overlap : Nat) (i : Nat) :
    List Str :=
  if _h : i < tokens.length then
    (if (tokens.drop i).take size = [] then [] else [decode ((tokens.drop i).take size)])
      ++ swGo decode tokens size overlap (i + max (size - overlap) 1)
  else []
termination_by tokens.length - i
decreasing_by
  have h1 : 1 ≤ max (size - overlap) 1 := le_max_right _ _
  omega

/-- `chunk_text_sliding_window` from `src/core/chunking.py` (lines 13-63).
The NLTK sentence tokenizer and the tiktoken encoder/decoder are external
collaborators passed as parameters. -/
def chunk_text_sliding_window (sentTok : Str → List Str) (encode : Str → List Nat)
    (decode : List Nat → Str) (text : Str) (mode : Mode) (size overlap : Nat) : List Str :=
  if stripL text = [] then []
  else
    match mode with
    | Mode.paragraph =>
        ((split2 '\n' '\n' text).filter (fun p => decide (stripL p ≠ []))).map stripL
    | Mode.sentence => sentLoop size (sentTok text) [] 0
    | Mode.token => swGo decode (encode text) size overlap 0

/-- The five separators `["\n\n", "\n", ". ", " ", ""]` used by the recursive
splitter. -/
inductive Sep
  | nn
  | nl
  | dot
  | sp
  | chr

/-- `text.split(separator)` for each non-empty separator in the list. -/
def sepSplit : Sep → Str → List Str
  | Sep.nn, s => split2 '\n' '\n' s
  | Sep.nl, s => split1 '\n' s
  | Sep.dot, s => split2 '.' ' ' s
  | Sep.sp, s => split1 ' ' s
  | Sep.chr, s => [s]

def theSeparators : List Sep := [Sep.nn, Sep.nl, Sep.dot, Sep.sp, Sep.chr]

/-- `split_text` from `src/core/chunking.py` (lines 90-110): recursive
hierarchical splitting; oversized parts recurse on the remaining separators,
blank short parts are dropped, `""` splits to characters. -/
def split_text (size : Nat) (seps : List Sep) (text : Str) : List Str :=
  match seps with
  | [] => [text]
  | Sep.chr :: _ => text.map (fun c => [c])
  | sep :: rest =>
    ((sepSplit sep text).map (fun part =>
      if size < part.length then split_text size rest part
      else if stripL part = [] then [] else [part])).flatten
termination_by seps.length
decreasing_by all_goals simp

/-- The merge loop of `chunk_text_recursive` (`src/core/chunking.py` lines
133-152): greedily merge initial chunks up to `size` words, splitting
oversized chunks with `split_text`. -/
def mergeChunks (size : Nat) : List Str → Str → List Str
  | [], current => if current = [] then [] else [current]
  | chunk :: rest, current =>
    if (wordsOf current).length + (wordsOf chunk).length ≤ size then
      mergeChunks size rest (current ++ (if current = [] then [] else [' ']) ++ chunk)
    else
      (if current = [] then [] else [current])
        ++ (if size < (wordsOf chunk).length then
              ((split_text size theSeparators chunk).filter
                  (fun c2 => decide (stripL c2 ≠ []))) ++ mergeChunks size rest []
            else mergeChunks size rest chunk)

/-- Python index normalization for list slices (`l[i:j]` endpoints). -/
def pyIdx (len : Nat) (i : Int) : Nat :=
  if i < 0 then ((len : Int) + i).toNat else min i.toNat len

/-- Python list slice `l[i:j]` with `Int` endpoints. -/
def pySlice {α : Type} (l : List α) (i j : Int) : List α :=
  (l.drop (pyIdx l.length i)).take (pyIdx l.length j - pyIdx l.length i)

/-- The token-mode `while` loop of `chunk_text_recursive`
(`src/core/chunking.py` lines 122-131), with explicit fuel: `i` starts at 0,
each iteration emits `tokens[i:min(i+size, len)]` decoded and advances `i` by
`size - overlap` when `overlap > 0` and by `size` otherwise; `none` means the
fuel ran out with the loop still running. -/
def recTokenGo (decode : List Nat → Str) (tokens : List Nat) (size overlap : Nat) :
    Int → Nat → Option (List Str)
  | i, 0 => if i < (tokens.length : Int) then none else some []
  | i, fuel + 1 =>
    if i < (tokens.length : Int) then
      (recTokenGo decode tokens size overlap
          (i + (if 0 < overlap then (size : Int) - overlap else size)) fuel).map
        (fun rest => decode (pySlice tokens i (min (i + size) tokens.length)) :: rest)
    else some []

/-- `chunk_text_recursive` from `src/core/chunking.py` (lines 66-154), with
fuel for the token-mode loop (the only possibly non-terminating part). -/
def chunk_text_recursive (sentTok : Str → List Str) (encode : Str → List Nat)
    (decode : List Nat → Str) (text : Str) (mode : Mode) (size overlap : Nat)
    (fuel : Nat) : Option (List Str) :=
  if stripL text = [] then some []
  else
    match mode with
    | Mode.paragraph =>
        some (mergeChunks size
          (((split2 '\n' '\n' text).filter (fun p => decide (stripL p ≠ []))).map stripL) [])
    | Mode.sentence => some (mergeChunks size (sentTok text) [])
    | Mode.token => recTokenGo decode (encode text) size overlap 0 fuel

/-- `chunk_text` from `src/core/chunking.py` (lines 157-180): route to the
selected algorithm. -/
def chunk_text (sentTok : Str → List Str) (encode : Str → List Nat)
    (decode : List Nat → Str) (text : Str) (alg : Algorithm) (mode : Mode)
    (size overlap fuel : Nat) : Option (List Str) :=
  match alg with
  | Algorithm.slidingWindow =>
      some (chunk_text_sliding_window sentTok encode decode text mode size overlap)
  | Algorithm.recursive =>
      chunk_text_recursive sentTok encode decode text mode size overlap fuel

/-- Python `range(i, stop, step)` for `step ≥ 1` (empty when `step = 0`,
which never occurs in the code). -/
def pyRangeGo (stop step i : Nat) : List Nat :=
  if _h : i < stop ∧ 1 ≤ step then i :: pyRangeGo stop step (i + step) else []
termination_by stop - i
decreasing_by omega

/-- A concrete tokenizer for witnesses: one token per character. -/
def encode0 (s : Str) : List Nat := s.map Char.toNat

/-- A concrete detokenizer for witnesses: inverse of `encode0`. -/
def decode0 (l : List Nat) : Str := l.map Char.ofNat

/-- A concrete sentence tokenizer for witnesses: trimmed, non-blank input is
one sentence. -/
def sentTok0 (s : Str) : List Str := if stripL s = [] then [] else [stripL s]

/-- Python's `round(x, 2)` modelled on `ℚ` (both the code and the claim apply
the same rounding, so its tie behaviour is immaterial below). -/
def pyRound2 (x : ℚ) : ℚ := (round (x * 100) : ℤ) / 100

/-- One retrieval hit: the chunk text, its raw FAISS distance, and the derived
confidence percentage. -/
structure RetrievalHit where
  chunk : Str
  distance : ℚ
  confidence : ℚ

/-- `retrieve` from `src/core/retrieval.py` (lines 34-55).  The FAISS search is
an external collaborator; its output row (`zip(D[0], I[0])`) is the
`searchResult` parameter.  For a `faiss.IndexFlatL2` index the returned
distances are squared L2 distances, sorted ascending. -/
def retrieve (chunks : List Str) (searchResult : List (ℚ × Nat)) : List RetrievalHit :=
  searchResult.map (fun di =>
    { chunk := chunks.getD di.2 []
      distance := di.1
      confidence := pyRound2 (max 0 (min 1 (1 - di.1 / 2)) * 100) })

/-- One per-run record of `run_benchmark_test` (`src/analysis/benchmarking.py`
lines 15-74); `error` is `none` for a successful run. -/
structure BenchRecord where
  run : Nat
  value : String
  confidence : ℚ
  time_ms : ℚ
  num_chunks : Nat
  error : Option String
deriving DecidableEq

/-- The loop of `run_benchmark_test`: run `i` calls the extractor (an external
collaborator returning value, confidence and retrieved chunks, or raising), and
a sleep of `delay` (doubled after an error) is issued after every non-last run.
The second component is the list of issued sleep durations, in order; the
elapsed wall-clock time of run `i` is the external `elapsedMs i`. -/
def benchGo {α : Type} (n : Nat) (delay : ℚ)
    (extractor : Nat → Except String (String × ℚ × List α))
    (elapsedMs : Nat → ℚ) (i : Nat) : List BenchRecord × List ℚ :=
  if _h : i < n then
    match extractor i with
    | Except.ok (v, c, chunks) =>
      let rest := benchGo n delay extractor elapsedMs (i + 1)
      (⟨i + 1, v, c, elapsedMs i, chunks.length, none⟩ :: rest.1,
       (if i < n - 1 then [delay] else []) ++ rest.2)
    | Except.error e =>
      let rest := benchGo n delay extractor elapsedMs (i + 1)
      (⟨i + 1, "ERROR", 0, 0, 0, some e⟩ :: rest.1,
       (if i < n - 1 then [delay * 2] else []) ++ rest.2)
  else ([], [])
termination_by n - i

/-- `run_benchmark_test` from `src/analysis/benchmarking.py` (lines 15-74). -/
def run_benchmark_test {α : Type} (n : Nat) (delay : ℚ)
    (extractor : Nat → Except String (String × ℚ × List α))
    (elapsedMs : Nat → ℚ) : List BenchRecord × List ℚ :=
  benchGo n delay extractor elapsedMs 0

/-- The record run `j` produces, by the extractor's outcome. -/
def benchRecordFor {α : Type} (extractor : Nat → Except String (String × ℚ × List α))
    (elapsedMs : Nat → ℚ) (j : Nat) : BenchRecord :=
  match extractor j with
  | Except.ok (v, c, chunks) => ⟨j + 1, v, c, elapsedMs j, chunks.length, none⟩
  | Except.error e => ⟨j + 1, "ERROR", 0, 0, 0, some e⟩

/-- The sleep issued after run `j` (doubled when the run errored). -/
def benchSleepFor {α : Type} (extractor : Nat → Except String (String × ℚ × List α))
    (delay : ℚ) (j : Nat) : ℚ :=
  match extractor j with
  | Except.ok _ => delay
  | Except.error _ => delay * 2

/-- A field definition record: `field_name` and `query` keys, either possibly
absent (Python `field.get(...)` with defaults). -/
structure Field where
  field_name : Option String
  query : Option String
deriving DecidableEq

/-- `field.get("field_name", f"Field {i+1}")`. -/
def resolveFieldName (i : Nat) (f : Field) : String :=
  f.field_name.getD ("Field " ++ toString (i + 1))

/-- Python's `round(x, 1)` modelled on `ℚ`. -/
def pyRound1 (x : ℚ) : ℚ := (round (x * 10) : ℤ) / 10

/-- One result record of `extract_all_fields` (`src/core/extraction.py`
lines 180-246). -/
structure ExtractionRecord where
  field_name : String
  value : String
  confidence : ℚ
  reasoning : String
  query : String
deriving DecidableEq

/-- The loop of `extract_all_fields`: per field, the whole `try` body
(retrieval, context join and `extract_field_value`, all built on external
calls) is the `body` parameter, returning (value, confidence, reasoning) or
raising; the second component lists the issued sleeps in order. -/
def extractAllGo (body : Nat → Field → Except String (String × ℚ × String)) (delay : ℚ) :
    Nat → List Field → List ExtractionRecord × List ℚ
  | _, [] => ([], [])
  | i, f :: rest =>
    match body i f with
    | Except.ok (v, c, rsn) =>
      (⟨resolveFieldName i f, v, pyRound1 c, rsn, f.query.getD ""⟩
          :: (extractAllGo body delay (i + 1) rest).1,
       (if rest = [] then [] else [delay]) ++ (extractAllGo body delay (i + 1) rest).2)
    | Except.error e =>
      (⟨resolveFieldName i f, "ERROR", 0, e, f.query.getD ""⟩
          :: (extractAllGo body delay (i + 1) rest).1,
       (if rest = [] then [] else [delay * 2]) ++ (extractAllGo body delay (i + 1) rest).2)

/-- `extract_all_fields` from `src/core/extraction.py` (lines 180-246). -/
def extract_all_fields (body : Nat → Field → Except String (String × ℚ × String))
    (delay : ℚ) (fields : List Field) : List ExtractionRecord × List ℚ :=
  if fields = [] then ([], []) else extractAllGo body delay 0 fields

/-- The record field `j` produces in `extract_all_fields`. -/
def eaRecordFor (body : Nat → Field → Except String (String × ℚ × String))
    (j : Nat) (f : Field) : ExtractionRecord :=
  match body j f with
  | Except.ok (v, c, rsn) => ⟨resolveFieldName j f, v, pyRound1 c, rsn, f.query.getD ""⟩
  | Except.error e => ⟨resolveFieldName j f, "ERROR", 0, e, f.query.getD ""⟩

/-- The sleep issued after field `j` in `extract_all_fields`. -/
def eaSleepFor (body : Nat → Field → Except String (String × ℚ × String))
    (delay : ℚ) (j : Nat) (f : Field) : ℚ :=
  match body j f with
  | Except.ok _ => delay
  | Except.error _ => delay * 2

/-- One result record of `rag_extraction`
(`src/analysis/flow_comparison.py` lines 170-298). -/
structure RagRecord where
  field_name : String
  value : String
  confidence : ℚ
  confidence_reason : String
  source : String
  chunks_used : Option Nat
  error : Option String
deriving DecidableEq

/-- `field.get("query", f"What is the {field_name}?")` in `rag_extraction`. -/
def resolveRagQuery (i : Nat) (f : Field) : String :=
  f.query.getD ("What is the " ++ resolveFieldName i f ++ "?")

/-- The loop of `rag_extraction`: the `try` body (retrieval, truncation,
prompt, generation call and JSON-fallback parsing, all built on external
calls) is the `body` parameter, returning (value, confidence, reason,
chunks used) or raising. -/
def ragGo (body : Nat → Field → Except String (String × ℚ × String × Nat)) (delay : ℚ) :
    Nat → List Field → List RagRecord × List ℚ
  | _, [] => ([], [])
  | i, f :: rest =>
    match body i f with
    | Except.ok (v, c, rsn, used) =>
      (⟨resolveFieldName i f, v, pyRound1 c, rsn, "rag", some used, none⟩
          :: (ragGo body delay (i + 1) rest).1,
       (if rest = [] then [] else [delay]) ++ (ragGo body delay (i + 1) rest).2)
    | Except.error e =>
      (⟨resolveFieldName i f, "ERROR", 0, e, "rag", none, some e⟩
          :: (ragGo body delay (i + 1) rest).1,
       (if rest = [] then [] else [delay * 2]) ++ (ragGo body delay (i + 1) rest).2)

/-- `rag_extraction` from `src/analysis/flow_comparison.py` (lines 170-298),
restricted to its per-field result list and sleep sequence. -/
def rag_extraction (body : Nat → Field → Except String (String × ℚ × String × Nat))
    (delay : ℚ) (fields : List Field) : List RagRecord × List ℚ :=
  ragGo body delay 0 fields

/-- The record field `j` produces in `rag_extraction`. -/
def ragRecordFor (body : Nat → Field → Except String (String × ℚ × String × Nat))
    (j : Nat) (f : Field) : RagRecord :=
  match body j f with
  | Except.ok (v, c, rsn, used) =>
      ⟨resolveFieldName j f, v, pyRound1 c, rsn, "rag", some used, none⟩
  | Except.error e => ⟨resolveFieldName j f, "ERROR", 0, e, "rag", none, some e⟩

/-- The sleep issued after field `j` in `rag_extraction`. -/
def ragSleepFor (body : Nat → Field → Except String (String × ℚ × String × Nat))
    (delay : ℚ) (j : Nat) (f : Field) : ℚ :=
  match body j f with
  | Except.ok _ => delay
  | Except.error _ => delay * 2

/-- `os.path.join(dir, name)` (the directory is the already-resolved index
directory of `get_index_directory`). -/
def joinPath (dir name : Str) : Str := dir ++ '/' :: name

/-- `get_document_hash` from `src/core/index_persistence.py` (lines 16-26):
the first 16 characters of the SHA-256 hex digest (the digest itself is
computed by the external `hashlib`). -/
def get_document_hash (sha256hex : Str → Str) (text : Str) : Str :=
  (sha256hex text).take 16

/-- `get_index_path` from `src/core/index_persistence.py` (lines 44-58):
`(f"{document_hash}.faiss", f"{document_hash}_metadata.json")` inside the
index directory. -/
def get_index_path (base_dir docHash : Str) : Str × Str :=
  (joinPath base_dir (docHash ++ ".faiss".data),
   joinPath base_dir (docHash ++ "_metadata.json".data))

/-- `save_index` from `src/core/index_persistence.py` (lines 61-105), modelled
by its filesystem effect: the returned document hash together with the two
paths written (the binary index artifact to the first, the JSON metadata
sidecar to the second). -/
def save_index (sha256hex : Str → Str) (base_dir text : Str) : Str × (Str × Str) :=
  (get_document_hash sha256hex text,
   get_index_path base_dir (get_document_hash sha256hex text))

/-- Lower-case hexadecimal digit (the alphabet of `hexdigest()`). -/
def isHexDigit (c : Char) : Bool :=
  ('0' ≤ c && c ≤ '9') || ('a' ≤ c && c ≤ 'f')

/-- Claim C1: the Scorer's match classification applies the rules in order:
master empty or "n/a" case-insensitively gives ("N/A", 0); else equal trimmed
lowercased strings give ("exact", 100); else either normalized string containing
the other as a substring gives ("partial", 70); else any whitespace-delimited
word of the normalized master occurring in the normalized extracted string gives
("fuzzy", 40); otherwise ("mismatch", 0). -/
theorem C1_match_rules (e m : Str) :
    (m = [] ∨ lowerS m = "n/a".data → calc_match e m = ("N/A".data, 0))
    ∧ (m ≠ [] → lowerS m ≠ "n/a".data → normLow e = normLow m →
        calc_match e m = ("exact".data, 100))
    ∧ (m ≠ [] → lowerS m ≠ "n/a".data → normLow e ≠ normLow m →
        (containsSub (normLow e) (normLow m) = true ∨ containsSub (normLow m) (normLow e) = true) →
        calc_match e m = ("partial".data, 70))
    ∧ (m ≠ [] → lowerS m ≠ "n/a".data → normLow e ≠ normLow m →
        containsSub (normLow e) (normLow m) = false →
        containsSub (normLow m) (normLow e) = false →
        (∃ w ∈ wordsOf (normLow m), containsSub (normLow e) w = true) →
        calc_match e m = ("fuzzy".data, 40))
    ∧ (m ≠ [] → lowerS m ≠ "n/a".data → normLow e ≠ normLow m →
        containsSub (normLow e) (normLow m) = false →
        containsSub (normLow m) (normLow e) = false →
        (∀ w ∈ wordsOf (normLow m), containsSub (normLow e) w = false) →
        calc_match e m = ("mismatch".data, 0)) := by
  unfold normLow
  refine ⟨?_, ?_, ?_, ?_, ?_⟩
  · intro h
    simp only [calc_match, if_pos h]
  · intro hm hn heq
    have hna : ¬(m = [] ∨ lowerS m = "n/a".data) := by
      rintro (h | h)
      · exact hm h
      · exact hn h
    simp only [calc_match, if_neg hna, if_pos heq]
  · intro hm hn hne hor
    have hna : ¬(m = [] ∨ lowerS m = "n/a".data) := by
      rintro (h | h)
      · exact hm h
      · exact hn h
    have hb : (containsSub (stripL (lowerS e)) (stripL (lowerS m))
        || containsSub (stripL (lowerS m)) (stripL (lowerS e))) = true := by
      rcases hor with h | h <;> simp [h]
    simp only [calc_match, if_neg hna, if_neg hne, if_pos hb]
  · intro hm hn hne hc1 hc2 hex
    have hna : ¬(m = [] ∨ lowerS m = "n/a".data) := by
      rintro (h | h)
      · exact hm h
      · exact hn h
    have hb : ¬((containsSub (stripL (lowerS e)) (stripL (lowerS m))
        || containsSub (stripL (lowerS m)) (stripL (lowerS e))) = true) := by
      simp [hc1, hc2]
    have hany : ((wordsOf (stripL (lowerS m))).any
        (fun w => containsSub (stripL (lowerS e)) w)) = true := by
      rw [List.any_eq_true]
      obtain ⟨w, hw, hcw⟩ := hex
      exact ⟨w, hw, hcw⟩
    simp only [calc_match, if_neg hna, if_neg hne, if_neg hb, if_pos hany]
  · intro hm hn hne hc1 hc2 hall
    have hna : ¬(m = [] ∨ lowerS m = "n/a".data) := by
      rintro (h | h)
      · exact hm h
      · exact hn h
    have hb : ¬((containsSub (stripL (lowerS e)) (stripL (lowerS m))
        || containsSub (stripL (lowerS m)) (stripL (lowerS e))) = true) := by
      simp [hc1, hc2]
    have hany : ¬(((wordsOf (stripL (lowerS m))).any
        (fun w => containsSub (stripL (lowerS e)) w)) = true) := by
      rw [List.any_eq_true]
      rintro ⟨w, hw, hcw⟩
      rw [hall w hw] at hcw
      exact absurd hcw (by simp)
    simp only [calc_match, if_neg hna, if_neg hne, if_neg hb, if_neg hany]

/-- Witness for C1 at a concrete input ("partial" branch). -/
theorem C1_match_rules_witness :
    ("Acme Corp".data ≠ ([] : Str))
    ∧ lowerS "Acme Corp".data ≠ "n/a".data
    ∧ normLow "Acme Corporation".data ≠ normLow "Acme Corp".data
    ∧ containsSub (normLow "Acme Corporation".data) (normLow "Acme Corp".data) = true
    ∧ calc_match "Acme Corporation".data "Acme Corp".data = ("partial".data, 70) :=
  ⟨by decide, by decide, by decide, by decide,
    (C1_match_rules "Acme Corporation".data "Acme Corp".data).2.2.1
      (by decide) (by decide) (by decide) (Or.inl (by decide))⟩

/-- Claim C2: the hallucination score is 0 for empty/"N/A"/"ERROR" extractions,
0 on a normalized match with the master, 10 when the normalized extracted value
occurs in the lowercased context, and otherwise 20/40/60/80 by the word-overlap
fraction thresholds 0.8/0.5/0.2; the result is always at most 80. -/
theorem C2_hallucination_rules (e m c : Str) :
    (e = "N/A".data ∨ e = "ERROR".data ∨ e = [] →
      calculate_hallucination_score e m c = 0)
    ∧ (¬(e = "N/A".data ∨ e = "ERROR".data ∨ e = []) →
        normLow e = normLow m → calculate_hallucination_score e m c = 0)
    ∧ (¬(e = "N/A".data ∨ e = "ERROR".data ∨ e = []) →
        normLow e ≠ normLow m → containsSub (lowerS c) (normLow e) = true →
        calculate_hallucination_score e m c = 10)
    ∧ (¬(e = "N/A".data ∨ e = "ERROR".data ∨ e = []) →
        normLow e ≠ normLow m → containsSub (lowerS c) (normLow e) = false →
        ((overlapFrac (normLow e) (lowerS c) > 8/10 →
            calculate_hallucination_score e m c = 20)
          ∧ (overlapFrac (normLow e) (lowerS c) ≤ 8/10 →
              overlapFrac (normLow e) (lowerS c) > 5/10 →
              calculate_hallucination_score e m c = 40)
          ∧ (overlapFrac (normLow e) (lowerS c) ≤ 5/10 →
              overlapFrac (normLow e) (lowerS c) > 2/10 →
              calculate_hallucination_score e m c = 60)
          ∧ (overlapFrac (normLow e) (lowerS c) ≤ 2/10 →
              calculate_hallucination_score e m c = 80)))
    ∧ calculate_hallucination_score e m c ≤ 80 := by
  have hml : (if m = [] then ([] : Str) else stripL (lowerS m)) = stripL (lowerS m) := by
    cases m with
    | nil => simp [stripL, rstrip, lstrip, lowerS]
    | cons a t => simp
  have hov : (if (wordsOf (stripL (lowerS e))).dedup = [] then (0 : ℚ)
      else (((wordsOf (stripL (lowerS e))).dedup.filter
              (fun w => decide (w ∈ wordsOf (lowerS c)))).length : ℚ)
        / (((wordsOf (stripL (lowerS e))).dedup.length : ℚ)))
      = overlapFrac (stripL (lowerS e)) (lowerS c) := by
    by_cases h : (wordsOf (stripL (lowerS e))).dedup = []
    · simp [h, overlapFrac]
    · simp [h, overlapFrac]
  unfold normLow
  refine ⟨?_, ?_, ?_, ?_, ?_⟩
  · intro h
    simp only [calculate_hallucination_score, if_pos h]
  · intro hs heq
    simp only [calculate_hallucination_score, if_neg hs, hml, if_pos heq]
  · intro hs hne hsub
    simp only [calculate_hallucination_score, if_neg hs, hml, if_neg hne, if_pos hsub]
  · intro hs hne hsub
    have hsub2 : ¬(containsSub (lowerS c) (stripL (lowerS e)) = true) := by simp [hsub]
    refine ⟨?_, ?_, ?_, ?_⟩
    · intro hr
      simp only [calculate_hallucination_score, if_neg hs, hml, if_neg hne, if_neg hsub2,
        hov, if_pos hr]
    · intro hr1 hr2
      simp only [calculate_hallucination_score, if_neg hs, hml, if_neg hne, if_neg hsub2,
        hov, if_neg (not_lt.mpr hr1), if_pos hr2]
    · intro hr1 hr2
      have h8 : ¬(overlapFrac (stripL (lowerS e)) (lowerS c) > 8/10) :=
        not_lt.mpr (le_trans hr1 (by norm_num))
      simp only [calculate_hallucination_score, if_neg hs, hml, if_neg hne, if_neg hsub2,
        hov, if_neg h8, if_neg (not_lt.mpr hr1), if_pos hr2]
    · intro hr1
      have h8 : ¬(overlapFrac (stripL (lowerS e)) (lowerS c) > 8/10) :=
        not_lt.mpr (le_trans hr1 (by norm_num))
      have h5 : ¬(overlapFrac (stripL (lowerS e)) (lowerS c) > 5/10) :=
        not_lt.mpr (le_trans hr1 (by norm_num))
      simp only [calculate_hallucination_score, if_neg hs, hml, if_neg hne, if_neg hsub2,
        hov, if_neg h8, if_neg h5, if_neg (not_lt.mpr hr1)]
  · unfold calculate_hallucination_score
    split_ifs <;> try norm_num
    all_goals split_ifs <;> norm_num

/-- Witness for C2 at a concrete input (value found verbatim in context). -/
theorem C2_hallucination_rules_witness :
    ¬("foo".data = "N/A".data ∨ "foo".data = "ERROR".data ∨ "foo".data = ([] : Str))
    ∧ normLow "foo".data ≠ normLow "bar".data
    ∧ containsSub (lowerS "a foo b".data) (normLow "foo".data) = true
    ∧ calculate_hallucination_score "foo".data "bar".data "a foo b".data = 10 :=
  ⟨by decide, by decide, by decide,
    (C2_hallucination_rules "foo".data "bar".data "a foo b".data).2.2.1
      (by decide) (by decide) (by decide)⟩

/-- Claim C9 fails as stated: `calc_match "foo bar" "bar"` is ("partial", 70),
because the master string "bar" is a substring of "foo bar", so the substring
rule fires before the word rule; the claimed ("fuzzy", 40) is wrong. -/
theorem C9_counterexample :
    calc_match "foo bar".data "bar".data ≠ ("fuzzy".data, 40) := by decide

/-- Claim C9 (amended): the Scorer boundary cases, with
`match("foo bar","bar") = ("partial", 70)` since "bar" is contained in
"foo bar"; the other four boundary cases are as claimed. -/
theorem C9_boundary_amended :
    calc_match "Acme Corp".data "Acme Corp".data = ("exact".data, 100)
    ∧ calc_match "Acme Corporation".data "Acme Corp".data = ("partial".data, 70)
    ∧ calc_match "foo bar".data "bar".data = ("partial".data, 70)
    ∧ calc_match "xyz".data "abc".data = ("mismatch".data, 0)
    ∧ calc_match "anything".data "".data = ("N/A".data, 0) := by
  exact ⟨by decide, by decide, by decide, by decide, by decide⟩

/-- Claim C3: `retrieve` returns its hits in the search order, ascending by
distance (given that the FAISS search returns distances ascending), and each
hit's confidence equals `round(min(1, max(0, 1 - d^2/2)) * 100, 2)` where `d`
is the L2 distance (FAISS returning `d^2` as the raw distance). -/
theorem C3_retrieve (chunks : List Str) (sr : List (ℚ × Nat))
    (hsorted : List.Pairwise (· ≤ ·) (sr.map Prod.fst)) :
    List.Pairwise (· ≤ ·) ((retrieve chunks sr).map RetrievalHit.distance)
    ∧ (retrieve chunks sr).length = sr.length
    ∧ ∀ (j : Nat) (hj1 : j < sr.length) (hj2 : j < (retrieve chunks sr).length) (d : ℚ),
        0 ≤ d → (sr.get ⟨j, hj1⟩).1 = d ^ 2 →
        ((retrieve chunks sr).get ⟨j, hj2⟩).distance = d ^ 2
        ∧ ((retrieve chunks sr).get ⟨j, hj2⟩).confidence
            = pyRound2 (min 1 (max 0 (1 - d ^ 2 / 2)) * 100)
        ∧ ((retrieve chunks sr).get ⟨j, hj2⟩).chunk = chunks.getD (sr.get ⟨j, hj1⟩).2 [] := by
  have hmap : (retrieve chunks sr).map RetrievalHit.distance = sr.map Prod.fst := by
    simp [retrieve, List.map_map]
  have hclamp : ∀ x : ℚ, max 0 (min 1 x) = min 1 (max 0 x) := by
    intro x
    rw [max_min_distrib_left]
    norm_num
  refine ⟨by rw [hmap]; exact hsorted, by simp [retrieve], ?_⟩
  intro j hj1 hj2 d hd hsq
  have hget : (retrieve chunks sr).get ⟨j, hj2⟩ =
      { chunk := chunks.getD (sr.get ⟨j, hj1⟩).2 []
        distance := (sr.get ⟨j, hj1⟩).1
        confidence := pyRound2 (max 0 (min 1 (1 - (sr.get ⟨j, hj1⟩).1 / 2)) * 100) } := by
    simp [retrieve, List.get_eq_getElem, List.getElem_map]
  rw [hget, hsq]
  exact ⟨rfl, by rw [hclamp], rfl⟩

/-- Witness for C3 on a two-hit search result with distances 1/4 and 4. -/
theorem C3_retrieve_witness :
    List.Pairwise (· ≤ ·) (([((1:ℚ)/4, (1:Nat)), (4, 0)]).map Prod.fst)
    ∧ (0:ℚ) ≤ 1/2
    ∧ (([((1:ℚ)/4, (1:Nat)), (4, 0)]).get ⟨0, by decide⟩).1 = (1/2 : ℚ) ^ 2
    ∧ ((retrieve ["alpha".data, "beta".data] [((1:ℚ)/4, 1), (4, 0)]).get
          ⟨0, by decide⟩).confidence
        = pyRound2 (min 1 (max 0 (1 - ((1/2 : ℚ)) ^ 2 / 2)) * 100) :=
  ⟨by norm_num [List.pairwise_cons], by norm_num, by norm_num,
    ((C3_retrieve ["alpha".data, "beta".data] [((1:ℚ)/4, 1), (4, 0)]
        (by norm_num [List.pairwise_cons])).2.2 0 (by decide) (by decide) (1/2)
        (by norm_num) (by norm_num)).2.1⟩


theorem take_ne_nil {α : Type} (l : List α) (size : Nat) (hl : l ≠ []) (hs : 1 ≤ size) :
    l.take size ≠ [] := by
  cases l with
  | nil => exact absurd rfl hl
  | cons a t =>
    cases size with
    | zero => omega
    | succ n => simp

theorem swGo_eq_range (decode : List Nat → Str) (tokens : List Nat) (size overlap : Nat)
    (hsize : 1 ≤ size) :
    ∀ (n i : Nat), tokens.length - i ≤ n →
      swGo decode tokens size overlap i
        = (pyRangeGo tokens.length (max (size - overlap) 1) i).map
            (fun j => decode ((tokens.drop j).take size)) := by
  intro n
  induction n with
  | zero =>
    intro i hle
    have hni : ¬(i < tokens.length) := by omega
    rw [swGo, pyRangeGo]
    simp [hni]
  | succ n ih =>
    intro i hle
    by_cases hi : i < tokens.length
    · have hwin : (tokens.drop i).take size ≠ [] := by
        apply take_ne_nil
        · intro hcon
          have := congrArg List.length hcon
          simp at this
          omega
        · exact hsize
      rw [swGo, pyRangeGo]
      rw [dif_pos hi, dif_pos ⟨hi, le_max_right _ 1⟩, if_neg hwin]
      have h1 : 1 ≤ max (size - overlap) 1 := le_max_right _ _
      rw [ih (i + max (size - overlap) 1) (by omega)]
      simp
    · rw [swGo, pyRangeGo]
      simp [hi]


/-- Claim C4: for non-empty token encodings, `size ≥ 1` and any overlap,
sliding-window token-mode chunking uses step `max(size - overlap, 1) ≥ 1` and
equals the decoded windows `tokens[i:i+size]` for `i = 0, step, 2*step, ...`
(the final partial window included, every window non-empty), so it terminates
and returns at least one chunk. -/
theorem C4_sliding_token (sentTok : Str → List Str) (encode : Str → List Nat)
    (decode : List Nat → Str) (text : Str) (size overlap : Nat)
    (htext : stripL text ≠ []) (htok : encode text ≠ []) (hsize : 1 ≤ size) :
    1 ≤ max (size - overlap) 1
    ∧ chunk_text_sliding_window sentTok encode decode text Mode.token size overlap
        = (pyRangeGo (encode text).length (max (size - overlap) 1) 0).map
            (fun i => decode (((encode text).drop i).take size))
    ∧ chunk_text_sliding_window sentTok encode decode text Mode.token size overlap ≠ [] := by
  have hgo : chunk_text_sliding_window sentTok encode decode text Mode.token size overlap
      = swGo decode (encode text) size overlap 0 := by
    simp [chunk_text_sliding_window, htext]
  have heq := swGo_eq_range decode (encode text) size overlap hsize
    (encode text).length 0 (by omega)
  refine ⟨le_max_right _ _, by rw [hgo, heq], ?_⟩
  rw [hgo, swGo]
  have h0 : 0 < (encode text).length := List.length_pos.mpr htok
  have hwin : ((encode text).drop 0).take size ≠ [] := by
    apply take_ne_nil
    · simpa using htok
    · exact hsize
  rw [dif_pos h0, if_neg hwin]
  simp

/-- Witness for C4 on the 3-character text "abc" with size 2, overlap 1. -/
theorem C4_sliding_token_witness :
    (stripL "abc".data ≠ [])
    ∧ (encode0 "abc".data ≠ [])
    ∧ (1 ≤ 2)
    ∧ chunk_text_sliding_window sentTok0 encode0 decode0 "abc".data Mode.token 2 1
        = (pyRangeGo (encode0 "abc".data).length (max (2 - 1) 1) 0).map
            (fun i => decode0 (((encode0 "abc".data).drop i).take 2)) :=
  ⟨by decide, by decide, by decide,
    (C4_sliding_token sentTok0 encode0 decode0 "abc".data 2 1
      (by decide) (by decide) (by decide)).2.1⟩

theorem recTokenGo_stab (decode : List Nat → Str) (tokens : List Nat) (size overlap : Nat)
    (hstep : 1 ≤ (if 0 < overlap then (size : Int) - overlap else (size : Int))) :
    ∀ (n : Nat) (i : Int), 0 ≤ i → (tokens.length : Int) ≤ i + n →
      ∃ r, ∀ fuel, n ≤ fuel → recTokenGo decode tokens size overlap i fuel = some r := by
  intro n
  induction n with
  | zero =>
    intro i h0 hlen
    refine ⟨[], fun fuel _ => ?_⟩
    have hni : ¬(i < (tokens.length : Int)) := by omega
    cases fuel with
    | zero => simp [recTokenGo, hni]
    | succ f => simp [recTokenGo, hni]
  | succ n ih =>
    intro i h0 hlen
    by_cases hi : i < (tokens.length : Int)
    · obtain ⟨r2, hr2⟩ := ih (i + (if 0 < overlap then (size : Int) - overlap else (size : Int)))
        (by omega) (by push_cast at hlen ⊢; omega)
      refine ⟨decode (pySlice tokens i (min (i + size) tokens.length)) :: r2, ?_⟩
      intro fuel hf
      cases fuel with
      | zero => omega
      | succ f =>
        simp only [recTokenGo, if_pos hi]
        rw [hr2 f (by omega)]
        rfl
    · refine ⟨[], fun fuel _ => ?_⟩
      cases fuel with
      | zero => simp [recTokenGo, hi]
      | succ f => simp [recTokenGo, hi]

theorem recTokenGo_diverge (decode : List Nat → Str) (tokens : List Nat) (size overlap : Nat)
    (hsize : 1 ≤ size) (hso : size ≤ overlap) (hne : tokens ≠ []) :
    ∀ (fuel : Nat) (i : Int), i ≤ 0 → recTokenGo decode tokens size overlap i fuel = none := by
  have hlen : 0 < tokens.length := List.length_pos.mpr hne
  intro fuel
  induction fuel with
  | zero =>
    intro i hi
    have hlt : i < (tokens.length : Int) := by omega
    simp [recTokenGo, hlt]
  | succ f ih =>
    intro i hi
    have hlt : i < (tokens.length : Int) := by omega
    have hov : 0 < overlap := by omega
    simp only [recTokenGo, if_pos hlt, if_pos hov]
    rw [ih (i + ((size : Int) - overlap)) (by omega)]
    rfl

/-- Claim C5: recursive token-mode chunking advances its index by
`size - overlap` when `overlap > 0` and by `size` when `overlap = 0` (second
conjunct, the loop unfolding); for a text with non-empty encoding it reaches a
result under `overlap = 0 ∨ overlap < size` (third conjunct), and for
`0 < size ≤ overlap` the loop never terminates: every fuel is exhausted
(fourth conjunct). -/
theorem C5_recursive_token (sentTok : Str → List Str) (encode : Str → List Nat)
    (decode : List Nat → Str) (text : Str) (size overlap : Nat)
    (htext : stripL text ≠ []) (htok : encode text ≠ []) (hsize : 1 ≤ size) :
    (∀ fuel, chunk_text_recursive sentTok encode decode text Mode.token size overlap fuel
        = recTokenGo decode (encode text) size overlap 0 fuel)
    ∧ (∀ (i : Int) (fuel : Nat), i < ((encode text).length : Int) →
        recTokenGo decode (encode text) size overlap i (fuel + 1)
          = (recTokenGo decode (encode text) size overlap
              (i + (if 0 < overlap then (size : Int) - overlap else (size : Int))) fuel).map
              (fun rest =>
                decode (pySlice (encode text) i (min (i + size) (encode text).length)) :: rest))
    ∧ ((overlap = 0 ∨ overlap < size) →
        ∃ r, ∀ fuel, (encode text).length ≤ fuel →
          chunk_text_recursive sentTok encode decode text Mode.token size overlap fuel = some r)
    ∧ (size ≤ overlap →
        ∀ fuel, chunk_text_recursive sentTok encode decode text Mode.token size overlap fuel
          = none) := by
  have hgo : ∀ fuel, chunk_text_recursive sentTok encode decode text Mode.token size overlap fuel
      = recTokenGo decode (encode text) size overlap 0 fuel := by
    intro fuel
    simp [chunk_text_recursive, htext]
  refine ⟨hgo, ?_, ?_, ?_⟩
  · intro i fuel hi
    simp only [recTokenGo, if_pos hi]
  · intro hcase
    have hstep : 1 ≤ (if 0 < overlap then (size : Int) - overlap else (size : Int)) := by
      rcases hcase with h0 | hlt
      · subst h0
        simp
        omega
      · by_cases hov : 0 < overlap
        · rw [if_pos hov]
          omega
        · rw [if_neg hov]
          omega
    obtain ⟨r, hr⟩ := recTokenGo_stab decode (encode text) size overlap hstep
      (encode text).length 0 le_rfl (by omega)
    exact ⟨r, fun fuel hf => by rw [hgo, hr fuel hf]⟩
  · intro hso fuel
    rw [hgo]
    exact recTokenGo_diverge decode (encode text) size overlap hsize hso htok fuel 0 le_rfl

/-- Witness for C5 on the text "abc" with size 2, overlap 3 (divergent case). -/
theorem C5_recursive_token_witness :
    (stripL "abc".data ≠ [])
    ∧ (encode0 "abc".data ≠ [])
    ∧ (1 ≤ 2)
    ∧ (2 ≤ 3 →
        ∀ fuel, chunk_text_recursive sentTok0 encode0 decode0 "abc".data Mode.token 2 3 fuel
          = none) :=
  ⟨by decide, by decide, by decide,
    (C5_recursive_token sentTok0 encode0 decode0 "abc".data 2 3
      (by decide) (by decide) (by decide)).2.2.2⟩

theorem dropWhile_idem (p : Char → Bool) (l : Str) :
    List.dropWhile p (List.dropWhile p l) = List.dropWhile p l := by
  induction l with
  | nil => rfl
  | cons a t ih =>
    by_cases h : p a = true
    · simp [List.dropWhile_cons, h, ih]
    · simp [List.dropWhile_cons, h]

theorem dropWhile_head_false (p : Char → Bool) (l : Str) (d : Char) (t : Str)
    (h : List.dropWhile p l = d :: t) : p d = false := by
  induction l with
  | nil => simp at h
  | cons a l2 ih =>
    by_cases ha : p a = true
    · rw [List.dropWhile_cons, if_pos ha] at h
      exact ih h
    · rw [List.dropWhile_cons, if_neg ha] at h
      cases h
      simpa using ha

theorem dropWhile_append_stop (p : Char → Bool) (h : Char) (hp : p h = false) (X : Str) :
    List.dropWhile p (X ++ [h]) = List.dropWhile p X ++ [h] := by
  induction X with
  | nil => simp [List.dropWhile_cons, hp]
  | cons x X2 ih =>
    by_cases hx : p x = true
    · simp [List.dropWhile_cons, hx, ih]
    · simp [List.dropWhile_cons, hx]

theorem stripL_eq_nil_iff (s : Str) : stripL s = [] ↔ ∀ c ∈ s, isWs c = true := by
  constructor
  · intro h c hc
    have hrev : List.dropWhile (fun c => isWs c) (lstrip s).reverse = [] := by
      have := congrArg List.reverse h
      simpa [stripL, rstrip] using this
    have hall2 : ∀ c ∈ lstrip s, isWs c = true := by
      intro c2 hc2
      have := List.dropWhile_eq_nil_iff.mp hrev c2 (by simpa using hc2)
      simpa using this
    have hsplit := List.takeWhile_append_dropWhile (fun c => isWs c) s
    have hc2 : c ∈ List.takeWhile (fun c => isWs c) s ++ List.dropWhile (fun c => isWs c) s := by
      rw [hsplit]
      exact hc
    rcases List.mem_append.mp hc2 with h2 | h2
    · simpa using List.mem_takeWhile_imp h2
    · exact hall2 c h2
  · intro h
    have h1 : lstrip s = [] := by
      rw [lstrip, List.dropWhile_eq_nil_iff]
      intro c hc
      simpa using h c hc
    simp [stripL, h1, rstrip]

theorem stripL_ne_nil_of_mem (s : Str) (c : Char) (hc : c ∈ s) (hw : isWs c = false) :
    stripL s ≠ [] := by
  intro h
  have := stripL_eq_nil_iff s |>.mp h c hc
  rw [hw] at this
  exact absurd this (by simp)

theorem rstrip_ends (u : Str) :
    rstrip u = [] ∨ ∃ v c, rstrip u = v ++ [c] ∧ isWs c = false := by
  rcases hw : List.dropWhile (fun c => isWs c) u.reverse with _ | ⟨d, t⟩
  · left
    simp [rstrip, hw]
  · right
    refine ⟨t.reverse, d, ?_, dropWhile_head_false _ _ _ _ hw⟩
    simp [rstrip, hw]

theorem stripL_fix_ends (s : Str) (hfix : stripL s = s) (hne : s ≠ []) :
    ∃ v c, s = v ++ [c] ∧ isWs c = false := by
  rcases rstrip_ends (lstrip s) with h | ⟨v, c, hvc, hw⟩
  · rw [stripL] at hfix
    rw [hfix] at h
    exact absurd h hne
  · rw [stripL] at hfix
    rw [hfix] at hvc
    exact ⟨v, c, hvc, hw⟩

theorem lstrip_of_head_false (s : Str) (h : s = [] ∨ ∃ d t, s = d :: t ∧ isWs d = false) :
    lstrip s = s := by
  rcases h with h | ⟨d, t, hdt, hd⟩
  · simp [h, lstrip]
  · subst hdt
    simp [lstrip, List.dropWhile_cons, hd]

theorem rstrip_head (h : Char) (t : Str) (hh : isWs h = false) :
    ∃ t2, rstrip (h :: t) = h :: t2 := by
  have : List.dropWhile (fun c => isWs c) ((h :: t).reverse)
      = List.dropWhile (fun c => isWs c) t.reverse ++ [h] := by
    rw [List.reverse_cons]
    exact dropWhile_append_stop _ h hh t.reverse
  refine ⟨(List.dropWhile (fun c => isWs c) t.reverse).reverse, ?_⟩
  rw [rstrip, List.reverse_cons, dropWhile_append_stop _ h hh t.reverse]
  simp

theorem stripL_idem (s : Str) : stripL (stripL s) = stripL s := by
  have hl : lstrip (rstrip (lstrip s)) = rstrip (lstrip s) := by
    apply lstrip_of_head_false
    rcases hu : lstrip s with _ | ⟨d, t⟩
    · left
      simp [rstrip]
    · have hd : isWs d = false := dropWhile_head_false _ s d t hu
      obtain ⟨t2, ht2⟩ := rstrip_head d t hd
      right
      exact ⟨d, t2, ht2, hd⟩
  have hr : rstrip (rstrip (lstrip s)) = rstrip (lstrip s) := by
    simp [rstrip, List.reverse_reverse, dropWhile_idem]
  calc stripL (stripL s) = rstrip (lstrip (rstrip (lstrip s))) := rfl
    _ = rstrip (rstrip (lstrip s)) := by rw [hl]
    _ = rstrip (lstrip s) := hr


theorem split1_ne_nil (a : Char) (s : Str) : split1 a s ≠ [] := by
  induction s using split1.induct a with
  | case1 => simp [split1]
  | case2 rest ih =>
    rw [split1]
    simp
  | case3 c rest hca hnil ih => exact absurd hnil ih
  | case4 c rest hca p ps hps ih =>
    rw [split1, if_neg hca, hps]
    simp

theorem split2_ne_nil (a b : Char) (s : Str) : split2 a b s ≠ [] := by
  induction s using split2.induct a b with
  | case1 => simp [split2]
  | case2 c => simp [split2]
  | case3 c d rest hab ih =>
    rw [split2, if_pos hab]
    simp
  | case4 c d rest hab hnil ih => exact absurd hnil ih
  | case5 c d rest hab p ps hps ih =>
    rw [split2, if_neg hab, hps]
    simp


theorem split2_cover (a b : Char) (s : Str) :
    ∀ c ∈ s, (∃ p ∈ split2 a b s, c ∈ p) ∨ c = a ∨ c = b := by
  induction s using split2.induct a b with
  | case1 => intro c hc; simp at hc
  | case2 x =>
    intro c hc
    simp at hc
    subst hc
    exact Or.inl ⟨[c], by simp [split2]⟩
  | case3 x d rest hab ih =>
    intro c hc
    rcases List.mem_cons.mp hc with hx | hc2
    · subst hx
      exact Or.inr (Or.inl hab.1)
    rcases List.mem_cons.mp hc2 with hd | hc3
    · subst hd
      exact Or.inr (Or.inr hab.2)
    · rcases ih c hc3 with ⟨p, hp, hcp⟩ | hsep
      · refine Or.inl ⟨p, ?_, hcp⟩
        rw [split2, if_pos hab]
        exact List.mem_cons_of_mem _ hp
      · exact Or.inr hsep
  | case4 x d rest hab hnil ih => exact absurd hnil (split2_ne_nil a b (d :: rest))
  | case5 x d rest hab p ps hps ih =>
    intro c hc
    rcases List.mem_cons.mp hc with hx | hc2
    · subst hx
      refine Or.inl ⟨c :: p, ?_, by simp⟩
      rw [split2, if_neg hab, hps]
      simp
    · rcases ih c hc2 with ⟨q, hq, hcq⟩ | hsep
      · rw [hps] at hq
        rcases List.mem_cons.mp hq with hqp | hqs
        · subst hqp
          refine Or.inl ⟨x :: q, ?_, List.mem_cons_of_mem _ hcq⟩
          rw [split2, if_neg hab, hps]
          simp
        · refine Or.inl ⟨q, ?_, hcq⟩
          rw [split2, if_neg hab, hps]
          exact List.mem_cons_of_mem _ hqs
      · exact Or.inr hsep

theorem split1_concat (a : Char) (L : Str) (c : Char) (hca : c ≠ a) :
    ∃ ps p, split1 a (L ++ [c]) = ps ++ [p ++ [c]] := by
  induction L with
  | nil =>
    refine ⟨[], [], ?_⟩
    simp [split1, hca]
  | cons x L2 ih =>
    obtain ⟨ps, p, hps⟩ := ih
    by_cases hx : x = a
    · refine ⟨[] :: ps, p, ?_⟩
      rw [List.cons_append, split1, if_pos hx, hps]
      simp
    · cases ps with
      | nil =>
        refine ⟨[], x :: p, ?_⟩
        rw [List.cons_append, split1, if_neg hx, hps]
        simp
      | cons q qs =>
        refine ⟨(x :: q) :: qs, p, ?_⟩
        rw [List.cons_append, split1, if_neg hx, hps]
        simp

theorem split2_concat (a b : Char) :
    ∀ (n : Nat) (L : Str), L.length ≤ n → ∀ (c : Char), c ≠ b →
      ∃ ps p, split2 a b (L ++ [c]) = ps ++ [p ++ [c]] := by
  intro n
  induction n with
  | zero =>
    intro L hL c hcb
    have : L = [] := List.length_eq_zero.mp (by omega)
    subst this
    refine ⟨[], [], ?_⟩
    simp [split2]
  | succ n ih =>
    intro L hL c hcb
    match L with
    | [] =>
      refine ⟨[], [], ?_⟩
      simp [split2]
    | [x] =>
      have hxy : ¬(x = a ∧ c = b) := fun h => hcb h.2
      refine ⟨[], [x], ?_⟩
      rw [List.cons_append, List.nil_append, split2, if_neg hxy]
      simp [split2]
    | x :: y :: L2 =>
      simp only [List.length_cons] at hL
      by_cases hxy : x = a ∧ y = b
      · obtain ⟨ps, p, hps⟩ := ih L2 (by omega) c hcb
        refine ⟨[] :: ps, p, ?_⟩
        rw [List.cons_append, List.cons_append, split2, if_pos hxy, hps]
        simp
      · obtain ⟨ps, p, hps⟩ := ih (y :: L2) (by simp; omega) c hcb
        rw [List.cons_append] at hps
        cases ps with
        | nil =>
          refine ⟨[], x :: p, ?_⟩
          rw [List.cons_append, List.cons_append, split2, if_neg hxy, hps]
          simp
        | cons q qs =>
          refine ⟨(x :: q) :: qs, p, ?_⟩
          rw [List.cons_append, List.cons_append, split2, if_neg hxy, hps]
          simp

theorem sepSplit_concat (sep : Sep) (hsep : sep ≠ Sep.chr) (L : Str) (c : Char)
    (hw : isWs c = false) :
    ∃ ps p, sepSplit sep (L ++ [c]) = ps ++ [p ++ [c]] := by
  have hnl : c ≠ '\n' := by
    intro h
    subst h
    simp [isWs] at hw
  have hsp : c ≠ ' ' := by
    intro h
    subst h
    simp [isWs] at hw
  cases sep with
  | nn => exact split2_concat '\n' '\n' L.length L le_rfl c hnl
  | nl => exact split1_concat '\n' L c hnl
  | dot => exact split2_concat '.' ' ' L.length L le_rfl c hsp
  | sp => exact split1_concat ' ' L c hsp
  | chr => exact absurd rfl hsep


theorem split_text_nil_seps (size : Nat) (s : Str) : split_text size [] s = [s] := by
  simp [split_text]

theorem split_text_chr (size : Nat) (rest : List Sep) (s : Str) :
    split_text size (Sep.chr :: rest) s = s.map (fun c => [c]) := by
  simp [split_text]

theorem split_text_cons (size : Nat) (sep : Sep) (rest : List Sep) (s : Str)
    (hsep : sep ≠ Sep.chr) :
    split_text size (sep :: rest) s
      = ((sepSplit sep s).map (fun part =>
          if size < part.length then split_text size rest part
          else if stripL part = [] then [] else [part])).flatten := by
  cases sep with
  | nn => simp [split_text]
  | nl => simp [split_text]
  | dot => simp [split_text]
  | sp => simp [split_text]
  | chr => exact absurd rfl hsep

theorem split_text_survivor (seps : List Sep) :
    ∀ (size : Nat) (s L : Str) (c : Char), s = L ++ [c] → isWs c = false →
      ∃ e ∈ split_text size seps s, stripL e ≠ [] := by
  induction seps with
  | nil =>
    intro size s L c hs hw
    refine ⟨s, by simp [split_text_nil_seps], ?_⟩
    exact stripL_ne_nil_of_mem s c (by simp [hs]) hw
  | cons sep rest ih =>
    intro size s L c hs hw
    by_cases hchr : sep = Sep.chr
    · subst hchr
      rw [split_text_chr]
      refine ⟨[c], List.mem_map_of_mem _ (by simp [hs]), ?_⟩
      exact stripL_ne_nil_of_mem [c] c (by simp) hw
    · subst hs
      obtain ⟨ps, p, hps⟩ := sepSplit_concat sep hchr L c hw
      have hpl : p ++ [c] ∈ sepSplit sep (L ++ [c]) := by
        rw [hps]
        simp
      rw [split_text_cons size sep rest _ hchr]
      by_cases hlen : size < (p ++ [c]).length
      · obtain ⟨e, he, hse⟩ := ih size (p ++ [c]) p c rfl hw
        refine ⟨e, ?_, hse⟩
        rw [List.mem_flatten]
        refine ⟨split_text size rest (p ++ [c]), ?_, he⟩
        exact List.mem_map.mpr ⟨p ++ [c], hpl, by rw [if_pos hlen]⟩
      · have hstrip : stripL (p ++ [c]) ≠ [] :=
          stripL_ne_nil_of_mem (p ++ [c]) c (by simp) hw
        refine ⟨p ++ [c], ?_, hstrip⟩
        rw [List.mem_flatten]
        refine ⟨[p ++ [c]], ?_, by simp⟩
        exact List.mem_map.mpr ⟨p ++ [c], hpl, by rw [if_neg hlen, if_neg hstrip]⟩

theorem mergeChunks_ne_nil (size : Nat) :
    ∀ (chunks : List Str) (current : Str),
      (∀ ch ∈ chunks, stripL ch = ch ∧ ch ≠ []) →
      (chunks ≠ [] ∨ current ≠ []) →
      mergeChunks size chunks current ≠ [] := by
  intro chunks
  induction chunks with
  | nil =>
    intro current hprops hne
    rcases hne with h | h
    · exact absurd rfl h
    · rw [mergeChunks, if_neg h]
      simp
  | cons ch rest ih =>
    intro current hprops hne
    obtain ⟨hfix, hchne⟩ := hprops ch (by simp)
    have hrest : ∀ x ∈ rest, stripL x = x ∧ x ≠ [] := fun x hx =>
      hprops x (List.mem_cons_of_mem _ hx)
    rw [mergeChunks]
    by_cases hfit : (wordsOf current).length + (wordsOf ch).length ≤ size
    · rw [if_pos hfit]
      apply ih _ hrest
      right
      simp [hchne]
    · rw [if_neg hfit]
      by_cases hcur : current = []
      · rw [if_pos hcur]
        by_cases hover : size < (wordsOf ch).length
        · rw [if_pos hover]
          obtain ⟨v, c, hvc, hw⟩ := stripL_fix_ends ch hfix hchne
          obtain ⟨e, he, hse⟩ := split_text_survivor theSeparators size ch v c hvc hw
          have hef : e ∈ (split_text size theSeparators ch).filter
              (fun c2 => decide (stripL c2 ≠ [])) := by
            rw [List.mem_filter]
            exact ⟨he, by simpa using hse⟩
          simp only [List.nil_append]
          intro hcon
          rw [List.append_eq_nil] at hcon
          exact absurd (hcon.1 ▸ hef) (by simp)
        · rw [if_neg hover]
          simp only [List.nil_append]
          exact ih ch hrest (Or.inr hchne)
      · rw [if_neg hcur]
        simp

theorem sentLoop_ne_nil (size : Nat) :
    ∀ (sents buf : List Str) (wc : Nat), (sents ≠ [] ∨ buf ≠ []) →
      sentLoop size sents buf wc ≠ [] := by
  intro sents
  induction sents with
  | nil =>
    intro buf wc hne
    rcases hne with h | h
    · exact absurd rfl h
    · rw [sentLoop, if_neg h]
      simp
  | cons s ss ih =>
    intro buf wc hne
    rw [sentLoop]
    by_cases h : size ≤ wc + (wordsOf s).length
    · rw [if_pos h]
      simp
    · rw [if_neg h]
      apply ih
      right
      simp

theorem para_init_props (text : Str) (htext : stripL text ≠ []) :
    (((split2 '\n' '\n' text).filter (fun p => decide (stripL p ≠ []))).map stripL ≠ [])
    ∧ ∀ e ∈ ((split2 '\n' '\n' text).filter (fun p => decide (stripL p ≠ []))).map stripL,
        stripL e = e ∧ e ≠ [] := by
  constructor
  · have hex : ∃ c ∈ text, isWs c = false := by
      by_contra hcon
      push_neg at hcon
      apply htext
      rw [stripL_eq_nil_iff]
      intro c hc
      have := hcon c hc
      revert this
      cases isWs c <;> simp
    obtain ⟨c, hc, hw⟩ := hex
    have hcnl : ¬(c = '\n' ∨ c = '\n') := by
      rintro (h | h) <;> (subst h; simp [isWs] at hw)
    rcases split2_cover '\n' '\n' text c hc with ⟨p, hp, hcp⟩ | hsep
    · have hstrip : stripL p ≠ [] := stripL_ne_nil_of_mem p c hcp hw
      have hpf : p ∈ (split2 '\n' '\n' text).filter (fun p => decide (stripL p ≠ [])) := by
        rw [List.mem_filter]
        exact ⟨hp, by simpa using hstrip⟩
      intro hcon
      rw [List.map_eq_nil_iff] at hcon
      exact absurd (hcon ▸ hpf) (by simp)
    · exact absurd hsep hcnl
  · intro e he
    obtain ⟨p, hpf, hpe⟩ := List.mem_map.mp he
    have hstrip : stripL p ≠ [] := by
      have := (List.mem_filter.mp hpf).2
      simpa using this
    subst hpe
    exact ⟨stripL_idem p, hstrip⟩


theorem sentTok0_good : ∀ t : Str, stripL t ≠ [] →
    sentTok0 t ≠ [] ∧ ∀ s ∈ sentTok0 t, stripL s = s ∧ s ≠ [] := by
  intro t h
  rw [sentTok0, if_neg h]
  refine ⟨by simp, ?_⟩
  intro s hs
  simp at hs
  subst hs
  exact ⟨stripL_idem t, h⟩

theorem encode0_good : ∀ t : Str, stripL t ≠ [] → encode0 t ≠ [] := by
  intro t h
  cases t with
  | nil => exact absurd rfl h
  | cons a s => simp [encode0]

/-- Claim C6 (amended): for both algorithms, every mode and every `size ≥ 1`,
`chunk_text` returns the empty sequence for blank input, and — provided that
in the Recursive/token combination `overlap = 0` or `overlap < size`, without
which the call does not terminate — returns at least one chunk for every
non-blank input.  The sentence tokenizer is assumed to produce a non-empty
list of trimmed non-empty sentences on non-blank input, and the token encoder
a non-empty encoding, as the spec describes. -/
theorem C6_chunk_text (sentTok : Str → List Str) (encode : Str → List Nat)
    (decode : List Nat → Str) (alg : Algorithm) (mode : Mode) (size overlap : Nat)
    (hsize : 1 ≤ size)
    (hsent : ∀ t : Str, stripL t ≠ [] →
      sentTok t ≠ [] ∧ ∀ s ∈ sentTok t, stripL s = s ∧ s ≠ [])
    (henc : ∀ t : Str, stripL t ≠ [] → encode t ≠ [])
    (hrec : alg = Algorithm.recursive → mode = Mode.token → overlap = 0 ∨ overlap < size) :
    (∀ (text : Str) (fuel : Nat), stripL text = [] →
        chunk_text sentTok encode decode text alg mode size overlap fuel = some [])
    ∧ (∀ text : Str, stripL text ≠ [] →
        ∃ r, r ≠ [] ∧ ∀ fuel, (encode text).length ≤ fuel →
          chunk_text sentTok encode decode text alg mode size overlap fuel = some r) := by
  constructor
  · intro text fuel hblank
    cases alg with
    | slidingWindow => simp [chunk_text, chunk_text_sliding_window, hblank]
    | recursive => simp [chunk_text, chunk_text_recursive, hblank]
  · intro text htext
    cases alg with
    | slidingWindow =>
      refine ⟨chunk_text_sliding_window sentTok encode decode text mode size overlap, ?_,
        fun fuel _ => by simp [chunk_text]⟩
      cases mode with
      | paragraph =>
        have h1 : chunk_text_sliding_window sentTok encode decode text Mode.paragraph size overlap
            = ((split2 '\n' '\n' text).filter (fun p => decide (stripL p ≠ []))).map stripL := by
          simp [chunk_text_sliding_window, htext]
        rw [h1]
        exact (para_init_props text htext).1
      | sentence =>
        have h1 : chunk_text_sliding_window sentTok encode decode text Mode.sentence size overlap
            = sentLoop size (sentTok text) [] 0 := by
          simp [chunk_text_sliding_window, htext]
        rw [h1]
        exact sentLoop_ne_nil size (sentTok text) [] 0 (Or.inl (hsent text htext).1)
      | token =>
        have h1 : chunk_text_sliding_window sentTok encode decode text Mode.token size overlap
            = swGo decode (encode text) size overlap 0 := by
          simp [chunk_text_sliding_window, htext]
        rw [h1, swGo]
        have h0 : 0 < (encode text).length := List.length_pos.mpr (henc text htext)
        have hwin : ((encode text).drop 0).take size ≠ [] := by
          apply take_ne_nil
          · simpa using henc text htext
          · exact hsize
        rw [dif_pos h0, if_neg hwin]
        simp
    | recursive =>
      cases mode with
      | paragraph =>
        obtain ⟨hne, hprops⟩ := para_init_props text htext
        exact ⟨_, mergeChunks_ne_nil size _ [] hprops (Or.inl hne),
          fun fuel _ => by simp [chunk_text, chunk_text_recursive, htext]⟩
      | sentence =>
        obtain ⟨hne, hprops⟩ := hsent text htext
        exact ⟨_, mergeChunks_ne_nil size _ [] hprops (Or.inl hne),
          fun fuel _ => by simp [chunk_text, chunk_text_recursive, htext]⟩
      | token =>
        have hcase := hrec rfl rfl
        have hstep : 1 ≤ (if 0 < overlap then (size : Int) - overlap else (size : Int)) := by
          rcases hcase with h0 | hlt
          · subst h0
            simp
            omega
          · by_cases hov : 0 < overlap
            · rw [if_pos hov]
              omega
            · rw [if_neg hov]
              omega
        obtain ⟨r, hr⟩ := recTokenGo_stab decode (encode text) size overlap hstep
          (encode text).length 0 le_rfl (by omega)
        have hlen : 0 < (encode text).length := List.length_pos.mpr (henc text htext)
        have hrne : r ≠ [] := by
          have hfuel := hr (encode text).length le_rfl
          obtain ⟨f, hf⟩ : ∃ f, (encode text).length = f + 1 :=
            ⟨(encode text).length - 1, by omega⟩
          rw [hf] at hfuel
          have h0 : (0 : Int) < (encode text).length := by exact_mod_cast hlen
          rw [recTokenGo, if_pos h0] at hfuel
          rcases hinner : recTokenGo decode (encode text) size overlap
              (0 + (if 0 < overlap then (size : Int) - overlap else (size : Int))) f with
            _ | r2
          · rw [hinner] at hfuel
            simp at hfuel
          · rw [hinner] at hfuel
            simp at hfuel
            rw [← hfuel]
            simp
        refine ⟨r, hrne, fun fuel hfl => ?_⟩
        have h2 : chunk_text sentTok encode decode text Algorithm.recursive Mode.token
            size overlap fuel = recTokenGo decode (encode text) size overlap 0 fuel := by
          simp [chunk_text, chunk_text_recursive, htext]
        rw [h2]
        exact hr fuel hfl

/-- Claim C6 fails as stated: with the Recursive algorithm in token mode and
`size = 1 ≤ overlap = 1`, the call on the non-blank text "a" never returns a
value for any fuel, so it does not return at least one chunk. -/
theorem C6_counterexample :
    ¬ ∃ (fuel : Nat) (r : List Str),
        chunk_text sentTok0 encode0 decode0 "a".data Algorithm.recursive Mode.token 1 1 fuel
          = some r := by
  rintro ⟨fuel, r, h⟩
  have hstr : stripL "a".data ≠ [] := by decide
  have hd := recTokenGo_diverge decode0 (encode0 "a".data) 1 1 le_rfl le_rfl
    (by decide) fuel 0 le_rfl
  have h2 : chunk_text sentTok0 encode0 decode0 "a".data Algorithm.recursive Mode.token
      1 1 fuel = recTokenGo decode0 (encode0 "a".data) 1 1 0 fuel := by
    simp [chunk_text, chunk_text_recursive, hstr]
  rw [h2, hd] at h
  exact Option.noConfusion h

/-- Witness for C6 at Recursive/token, size 2, overlap 1, text "hi". -/
theorem C6_chunk_text_witness :
    (1 ≤ 2)
    ∧ (Algorithm.recursive = Algorithm.recursive → Mode.token = Mode.token →
        1 = 0 ∨ 1 < 2)
    ∧ (∃ r, r ≠ [] ∧ ∀ fuel, (encode0 "hi".data).length ≤ fuel →
        chunk_text sentTok0 encode0 decode0 "hi".data Algorithm.recursive Mode.token
          2 1 fuel = some r) :=
  ⟨by decide, fun _ _ => Or.inr (by decide),
    (C6_chunk_text sentTok0 encode0 decode0 Algorithm.recursive Mode.token 2 1
      (by decide) sentTok0_good encode0_good (fun _ _ => Or.inr (by decide))).2
      "hi".data (by decide)⟩
theorem getD_map_range {β : Type} (m j : Nat) (f : Nat → β) (d : β) (hj : j < m) :
    ((List.range m).map f).getD j d = f j := by
  have hlen : j < ((List.range m).map f).length := by simpa using hj
  rw [List.getD_eq_getElem _ d hlen, List.getElem_map]
  congr 1
  exact List.getElem_range _ _

theorem benchGo_eq {α : Type} (n : Nat) (delay : ℚ)
    (extractor : Nat → Except String (String × ℚ × List α)) (elapsedMs : Nat → ℚ) :
    ∀ (k i : Nat), n - i ≤ k →
      benchGo n delay extractor elapsedMs i
        = ((List.range (n - i)).map (fun j => benchRecordFor extractor elapsedMs (i + j)),
           (List.range (n - 1 - i)).map (fun j => benchSleepFor extractor delay (i + j))) := by
  intro k
  induction k with
  | zero =>
    intro i hk
    have hni : ¬(i < n) := by omega
    rw [benchGo, dif_neg hni]
    have h1 : n - i = 0 := by omega
    have h2 : n - 1 - i = 0 := by omega
    rw [h1, h2]
    simp
  | succ k ih =>
    intro i hk
    by_cases hi : i < n
    · have hrec := ih (i + 1) (by omega)
      have hr1 : n - i = (n - (i + 1)) + 1 := by omega
      have hmap1 : (List.range (n - i)).map (fun j => benchRecordFor extractor elapsedMs (i + j))
          = benchRecordFor extractor elapsedMs i
            :: (List.range (n - (i + 1))).map (fun j => benchRecordFor extractor elapsedMs (i + 1 + j)) := by
        rw [hr1, List.range_succ_eq_map]
        simp only [List.map_cons, List.map_map, Function.comp, Nat.add_zero]
        refine congrArg₂ List.cons rfl ?_
        apply List.map_congr_left
        intro j hj
        simp only [Function.comp_apply]
        have harg : i + Nat.succ j = i + 1 + j := by omega
        rw [harg]
      have hmap2 : (List.range (n - 1 - i)).map (fun j => benchSleepFor extractor delay (i + j))
          = (if i < n - 1 then [benchSleepFor extractor delay i] else [])
            ++ (List.range (n - 1 - (i + 1))).map (fun j => benchSleepFor extractor delay (i + 1 + j)) := by
        by_cases hz : i < n - 1
        · have hr2 : n - 1 - i = (n - 1 - (i + 1)) + 1 := by omega
          rw [if_pos hz, hr2, List.range_succ_eq_map]
          simp only [List.map_cons, List.map_map, Function.comp, Nat.add_zero,
            List.singleton_append]
          refine congrArg₂ List.cons rfl ?_
          apply List.map_congr_left
          intro j hj
          simp only [Function.comp_apply]
          have harg : i + Nat.succ j = i + 1 + j := by omega
          rw [harg]
        · have hr2 : n - 1 - i = 0 := by omega
          have hr3 : n - 1 - (i + 1) = 0 := by omega
          rw [if_neg hz, hr2, hr3]
          simp
      rw [benchGo, dif_pos hi, hmap1, hmap2]
      rcases hext : extractor i with e | ⟨v, c, chunks⟩
      · simp only [hrec]
        rw [benchRecordFor, benchSleepFor, hext]
      · simp only [hrec]
        rw [benchRecordFor, benchSleepFor, hext]
    · rw [benchGo, dif_neg hi]
      have h1 : n - i = 0 := by omega
      have h2 : n - 1 - i = 0 := by omega
      rw [h1, h2]
      simp

/-- Claim C7: for `num_runs ≥ 1`, `run_benchmark_test` returns exactly
`num_runs` records with run indices `1..num_runs` in order; an erroring run
yields `{run, value = "ERROR", confidence = 0, time_ms = 0, error}`; exactly
one sleep is issued after every run but the last (so `num_runs - 1` sleeps
when no run errors), of duration `delay`, doubled after an erroring run. -/
theorem C7_run_benchmark_test {α : Type} (n : Nat) (delay : ℚ)
    (extractor : Nat → Except String (String × ℚ × List α)) (elapsedMs : Nat → ℚ)
    (hn : 1 ≤ n) :
    ((run_benchmark_test n delay extractor elapsedMs).1.length = n)
    ∧ (∀ j, j < n →
        (run_benchmark_test n delay extractor elapsedMs).1.getD j ⟨0, "", 0, 0, 0, none⟩
          = benchRecordFor extractor elapsedMs j)
    ∧ (∀ j, j < n →
        ((run_benchmark_test n delay extractor elapsedMs).1.getD j ⟨0, "", 0, 0, 0, none⟩).run
          = j + 1)
    ∧ (∀ j, j < n → ∀ e, extractor j = Except.error e →
        (run_benchmark_test n delay extractor elapsedMs).1.getD j ⟨0, "", 0, 0, 0, none⟩
          = ⟨j + 1, "ERROR", 0, 0, 0, some e⟩)
    ∧ ((run_benchmark_test n delay extractor elapsedMs).2.length = n - 1)
    ∧ (∀ j, j < n - 1 →
        (run_benchmark_test n delay extractor elapsedMs).2.getD j 0
          = benchSleepFor extractor delay j) := by
  have heq := benchGo_eq n delay extractor elapsedMs n 0 (by omega)
  have h1 : (run_benchmark_test n delay extractor elapsedMs).1
      = (List.range n).map (fun j => benchRecordFor extractor elapsedMs j) := by
    rw [run_benchmark_test, heq]
    simp
  have h2 : (run_benchmark_test n delay extractor elapsedMs).2
      = (List.range (n - 1)).map (fun j => benchSleepFor extractor delay j) := by
    rw [run_benchmark_test, heq]
    simp
  refine ⟨by rw [h1]; simp, ?_, ?_, ?_, by rw [h2]; simp, ?_⟩
  · intro j hj
    rw [h1, getD_map_range n j _ _ hj]
  · intro j hj
    rw [h1, getD_map_range n j _ _ hj]
    rcases hext : extractor j with e | ok
    · rw [benchRecordFor, hext]
    · rw [benchRecordFor, hext]
  · intro j hj e he
    rw [h1, getD_map_range n j _ _ hj, benchRecordFor, he]
  · intro j hj
    rw [h2, getD_map_range (n - 1) j _ _ hj]

/-- Witness for C7: two runs, the second erroring. -/
theorem C7_run_benchmark_test_witness :
    (1 ≤ 2)
    ∧ ((run_benchmark_test 2 (3/2)
          (fun i => if i = 0 then Except.ok ("v", (80:ℚ), [0]) else Except.error "boom")
          (fun _ => (5:ℚ))).1.length = 2)
    ∧ ((run_benchmark_test 2 (3/2)
          (fun i => if i = 0 then Except.ok ("v", (80:ℚ), [0]) else Except.error "boom")
          (fun _ => (5:ℚ))).1.getD 1 ⟨0, "", 0, 0, 0, none⟩
        = ⟨2, "ERROR", 0, 0, 0, some "boom"⟩) :=
  ⟨by decide,
    (C7_run_benchmark_test 2 (3/2)
      (fun i => if i = 0 then Except.ok ("v", (80:ℚ), [0]) else Except.error "boom")
      (fun _ => (5:ℚ)) (by decide)).1,
    (C7_run_benchmark_test 2 (3/2)
      (fun i => if i = 0 then Except.ok ("v", (80:ℚ), [0]) else Except.error "boom")
      (fun _ => (5:ℚ)) (by decide)).2.2.2.1 1 (by decide) "boom" rfl⟩

theorem extractAllGo_eq (body : Nat → Field → Except String (String × ℚ × String))
    (delay : ℚ) :
    ∀ (fields : List Field) (i : Nat),
      extractAllGo body delay i fields
        = ((List.range fields.length).map
              (fun j => eaRecordFor body (i + j) (fields.getD j ⟨none, none⟩)),
           (List.range (fields.length - 1)).map
              (fun j => eaSleepFor body delay (i + j) (fields.getD j ⟨none, none⟩))) := by
  intro fields
  induction fields with
  | nil => intro i; simp [extractAllGo]
  | cons f rest ih =>
    intro i
    have hrec0 : (List.range ((f :: rest).length)).map
          (fun j => eaRecordFor body (i + j) ((f :: rest).getD j ⟨none, none⟩))
        = eaRecordFor body i f
          :: (List.range rest.length).map
              (fun j => eaRecordFor body (i + 1 + j) (rest.getD j ⟨none, none⟩)) := by
      rw [List.length_cons, List.range_succ_eq_map]
      simp only [List.map_cons, List.map_map, Nat.add_zero, List.getD_cons_zero]
      refine congrArg₂ List.cons rfl ?_
      apply List.map_congr_left
      intro j hj
      simp only [Function.comp_apply, List.getD_cons_succ]
      have harg : i + Nat.succ j = i + 1 + j := by omega
      rw [harg]
    have hsleep0 : (List.range ((f :: rest).length - 1)).map
          (fun j => eaSleepFor body delay (i + j) ((f :: rest).getD j ⟨none, none⟩))
        = (if rest = [] then [] else [eaSleepFor body delay i f])
          ++ (List.range (rest.length - 1)).map
              (fun j => eaSleepFor body delay (i + 1 + j) (rest.getD j ⟨none, none⟩)) := by
      cases rest with
      | nil => simp
      | cons r rs =>
        rw [if_neg (by simp)]
        have hlen : (f :: r :: rs).length - 1 = ((r :: rs).length - 1) + 1 := by simp
        rw [hlen, List.range_succ_eq_map]
        simp only [List.map_cons, List.map_map, Nat.add_zero, List.getD_cons_zero,
          List.singleton_append]
        refine congrArg₂ List.cons rfl ?_
        apply List.map_congr_left
        intro j hj
        simp only [Function.comp_apply, List.getD_cons_succ]
        have harg : i + Nat.succ j = i + 1 + j := by omega
        rw [harg]
    rw [hrec0, hsleep0]
    rcases hb : body i f with e | ⟨v, c, rsn⟩
    · simp only [extractAllGo, eaRecordFor, eaSleepFor, hb, ih (i + 1)]
    · simp only [extractAllGo, eaRecordFor, eaSleepFor, hb, ih (i + 1)]

theorem ragGo_eq (body : Nat → Field → Except String (String × ℚ × String × Nat))
    (delay : ℚ) :
    ∀ (fields : List Field) (i : Nat),
      ragGo body delay i fields
        = ((List.range fields.length).map
              (fun j => ragRecordFor body (i + j) (fields.getD j ⟨none, none⟩)),
           (List.range (fields.length - 1)).map
              (fun j => ragSleepFor body delay (i + j) (fields.getD j ⟨none, none⟩))) := by
  intro fields
  induction fields with
  | nil => intro i; simp [ragGo]
  | cons f rest ih =>
    intro i
    have hrec0 : (List.range ((f :: rest).length)).map
          (fun j => ragRecordFor body (i + j) ((f :: rest).getD j ⟨none, none⟩))
        = ragRecordFor body i f
          :: (List.range rest.length).map
              (fun j => ragRecordFor body (i + 1 + j) (rest.getD j ⟨none, none⟩)) := by
      rw [List.length_cons, List.range_succ_eq_map]
      simp only [List.map_cons, List.map_map, Nat.add_zero, List.getD_cons_zero]
      refine congrArg₂ List.cons rfl ?_
      apply List.map_congr_left
      intro j hj
      simp only [Function.comp_apply, List.getD_cons_succ]
      have harg : i + Nat.succ j = i + 1 + j := by omega
      rw [harg]
    have hsleep0 : (List.range ((f :: rest).length - 1)).map
          (fun j => ragSleepFor body delay (i + j) ((f :: rest).getD j ⟨none, none⟩))
        = (if rest = [] then [] else [ragSleepFor body delay i f])
          ++ (List.range (rest.length - 1)).map
              (fun j => ragSleepFor body delay (i + 1 + j) (rest.getD j ⟨none, none⟩)) := by
      cases rest with
      | nil => simp
      | cons r rs =>
        rw [if_neg (by simp)]
        have hlen : (f :: r :: rs).length - 1 = ((r :: rs).length - 1) + 1 := by simp
        rw [hlen, List.range_succ_eq_map]
        simp only [List.map_cons, List.map_map, Nat.add_zero, List.getD_cons_zero,
          List.singleton_append]
        refine congrArg₂ List.cons rfl ?_
        apply List.map_congr_left
        intro j hj
        simp only [Function.comp_apply, List.getD_cons_succ]
        have harg : i + Nat.succ j = i + 1 + j := by omega
        rw [harg]
    rw [hrec0, hsleep0]
    rcases hb : body i f with e | ⟨v, c, rsn, used⟩
    · simp only [ragGo, ragRecordFor, ragSleepFor, hb, ih (i + 1)]
    · simp only [ragGo, ragRecordFor, ragSleepFor, hb, ih (i + 1)]

theorem extract_all_fields_eq (body : Nat → Field → Except String (String × ℚ × String))
    (delay : ℚ) (fields : List Field) :
    extract_all_fields body delay fields
      = ((List.range fields.length).map
            (fun j => eaRecordFor body j (fields.getD j ⟨none, none⟩)),
         (List.range (fields.length - 1)).map
            (fun j => eaSleepFor body delay j (fields.getD j ⟨none, none⟩))) := by
  by_cases h : fields = []
  · subst h
    simp [extract_all_fields]
  · rw [extract_all_fields, if_neg h, extractAllGo_eq body delay fields 0]
    simp

/-- Claim C8: `extract_all_fields` and `rag_extraction` return exactly one
record per input field in input order; a field whose processing raises is
recorded with value "ERROR" and confidence 0, the remaining fields are still
processed, and the inter-field sleep is doubled after such an error. -/
theorem C8_batch_error_isolation
    (bodyA : Nat → Field → Except String (String × ℚ × String))
    (bodyR : Nat → Field → Except String (String × ℚ × String × Nat))
    (delay : ℚ) (fields : List Field) :
    ((extract_all_fields bodyA delay fields).1.length = fields.length
      ∧ (∀ j, j < fields.length →
          (extract_all_fields bodyA delay fields).1.getD j ⟨"", "", 0, "", ""⟩
            = eaRecordFor bodyA j (fields.getD j ⟨none, none⟩))
      ∧ (∀ j, j < fields.length → ∀ e,
          bodyA j (fields.getD j ⟨none, none⟩) = Except.error e →
          (extract_all_fields bodyA delay fields).1.getD j ⟨"", "", 0, "", ""⟩
            = ⟨resolveFieldName j (fields.getD j ⟨none, none⟩), "ERROR", 0, e,
                (fields.getD j ⟨none, none⟩).query.getD ""⟩)
      ∧ ((extract_all_fields bodyA delay fields).2.length = fields.length - 1)
      ∧ (∀ j, j < fields.length - 1 →
          (extract_all_fields bodyA delay fields).2.getD j 0
            = eaSleepFor bodyA delay j (fields.getD j ⟨none, none⟩)))
    ∧ ((rag_extraction bodyR delay fields).1.length = fields.length
      ∧ (∀ j, j < fields.length →
          (rag_extraction bodyR delay fields).1.getD j ⟨"", "", 0, "", "", none, none⟩
            = ragRecordFor bodyR j (fields.getD j ⟨none, none⟩))
      ∧ (∀ j, j < fields.length → ∀ e,
          bodyR j (fields.getD j ⟨none, none⟩) = Except.error e →
          (rag_extraction bodyR delay fields).1.getD j ⟨"", "", 0, "", "", none, none⟩
            = ⟨resolveFieldName j (fields.getD j ⟨none, none⟩), "ERROR", 0, e, "rag",
                none, some e⟩)
      ∧ ((rag_extraction bodyR delay fields).2.length = fields.length - 1)
      ∧ (∀ j, j < fields.length - 1 →
          (rag_extraction bodyR delay fields).2.getD j 0
            = ragSleepFor bodyR delay j (fields.getD j ⟨none, none⟩))) := by
  have hA := extract_all_fields_eq bodyA delay fields
  have hR : rag_extraction bodyR delay fields
      = ((List.range fields.length).map
            (fun j => ragRecordFor bodyR j (fields.getD j ⟨none, none⟩)),
         (List.range (fields.length - 1)).map
            (fun j => ragSleepFor bodyR delay j (fields.getD j ⟨none, none⟩))) := by
    rw [rag_extraction, ragGo_eq bodyR delay fields 0]
    simp
  constructor
  · refine ⟨by rw [hA]; simp, ?_, ?_, by rw [hA]; simp, ?_⟩
    · intro j hj
      rw [hA]
      exact getD_map_range fields.length j _ _ hj
    · intro j hj e he
      rw [hA]
      rw [getD_map_range fields.length j _ _ hj, eaRecordFor, he]
    · intro j hj
      rw [hA]
      exact getD_map_range (fields.length - 1) j _ _ hj
  · refine ⟨by rw [hR]; simp, ?_, ?_, by rw [hR]; simp, ?_⟩
    · intro j hj
      rw [hR]
      exact getD_map_range fields.length j _ _ hj
    · intro j hj e he
      rw [hR]
      rw [getD_map_range fields.length j _ _ hj, ragRecordFor, he]
    · intro j hj
      rw [hR]
      exact getD_map_range (fields.length - 1) j _ _ hj

/-- Witness for C8: two fields, the first erroring, for both operations. -/
theorem C8_batch_error_isolation_witness :
    ((extract_all_fields
        (fun i _ => if i = 0 then Except.error "boom" else Except.ok ("v", (90:ℚ), "r"))
        2 [⟨some "a", some "qa"⟩, ⟨some "b", some "qb"⟩]).1.length = 2)
    ∧ ((extract_all_fields
        (fun i _ => if i = 0 then Except.error "boom" else Except.ok ("v", (90:ℚ), "r"))
        2 [⟨some "a", some "qa"⟩, ⟨some "b", some "qb"⟩]).1.getD 0 ⟨"", "", 0, "", ""⟩
      = ⟨"a", "ERROR", 0, "boom", "qa"⟩)
    ∧ ((rag_extraction
        (fun i _ => if i = 0 then Except.error "boom" else Except.ok ("v", (90:ℚ), "r", 2))
        2 [⟨some "a", some "qa"⟩, ⟨some "b", some "qb"⟩]).1.length = 2) :=
  ⟨(C8_batch_error_isolation
      (fun i _ => if i = 0 then Except.error "boom" else Except.ok ("v", (90:ℚ), "r"))
      (fun i _ => if i = 0 then Except.error "boom" else Except.ok ("v", (90:ℚ), "r", 2))
      2 [⟨some "a", some "qa"⟩, ⟨some "b", some "qb"⟩]).1.1,
   (C8_batch_error_isolation
      (fun i _ => if i = 0 then Except.error "boom" else Except.ok ("v", (90:ℚ), "r"))
      (fun i _ => if i = 0 then Except.error "boom" else Except.ok ("v", (90:ℚ), "r", 2))
      2 [⟨some "a", some "qa"⟩, ⟨some "b", some "qb"⟩]).1.2.2.1 0 (by decide) "boom" rfl,
   (C8_batch_error_isolation
      (fun i _ => if i = 0 then Except.error "boom" else Except.ok ("v", (90:ℚ), "r"))
      (fun i _ => if i = 0 then Except.error "boom" else Except.ok ("v", (90:ℚ), "r", 2))
      2 [⟨some "a", some "qa"⟩, ⟨some "b", some "qb"⟩]).2.1⟩

/-- Claim C10 fails as stated: the binary index artifact is written to
`{document_hash}.faiss`, not `{document_hash}.index`. -/
theorem C10_counterexample :
    (get_index_path "indexes".data "0123456789abcdef".data).1
      ≠ "indexes".data ++ '/' :: ("0123456789abcdef".data ++ ".index".data) := by decide

/-- Claim C10 (amended): `save_index` writes the binary index artifact to
`{document_hash}.faiss` and the JSON metadata sidecar to
`{document_hash}_metadata.json` inside the index directory, where
`document_hash` is the 16-hex-character truncation of the SHA-256 digest. -/
theorem C10_save_index_paths (sha256hex : Str → Str) (base_dir text : Str)
    (hlen : (sha256hex text).length = 64)
    (hhex : ∀ c ∈ sha256hex text, isHexDigit c = true) :
    ((get_document_hash sha256hex text).length = 16)
    ∧ (∀ c ∈ get_document_hash sha256hex text, isHexDigit c = true)
    ∧ (save_index sha256hex base_dir text).1 = get_document_hash sha256hex text
    ∧ (save_index sha256hex base_dir text).2.1
        = base_dir ++ '/' :: (get_document_hash sha256hex text ++ ".faiss".data)
    ∧ (save_index sha256hex base_dir text).2.2
        = base_dir ++ '/' :: (get_document_hash sha256hex text ++ "_metadata.json".data) := by
  refine ⟨?_, ?_, rfl, rfl, rfl⟩
  · rw [get_document_hash, List.length_take, hlen]
    simp
  · intro c hc
    exact hhex c (List.take_subset 16 _ hc)

/-- Witness for C10 with a concrete 64-character digest function. -/
theorem C10_save_index_paths_witness :
    ((fun _ : Str => List.replicate 64 'a') "doc".data).length = 64
    ∧ (∀ c ∈ (fun _ : Str => List.replicate 64 'a') "doc".data, isHexDigit c = true)
    ∧ (get_document_hash (fun _ : Str => List.replicate 64 'a') "doc".data).length = 16 :=
  ⟨by simp, by intro c hc; rw [List.eq_of_mem_replicate hc]; decide,
    (C10_save_index_paths (fun _ : Str => List.replicate 64 'a') "indexes".data "doc".data
      (by simp) (by intro c hc; rw [List.eq_of_mem_replicate hc]; decide)).1⟩
end RagStream
